import Mathlib

/-!
Verification of the clipboard-search collector (collect.js) against its
natural-language specification.

The development shallowly embeds the relevant parts of collect.js:

* the stability-polling extractor `extractFromTab` (its poll loop body,
  its exit paths and its try/catch/finally resource handling),
* the query slug generator `slugify`,
* the run-folder naming scheme (`<ISO-timestamp with [:.] replaced by
  "-" and sliced to 19 chars>_<slug>`),
* the multi-engine collection pipeline `collectAll` (per-engine status
  entries, file writes and the synthesis gate).

Effects that live outside the program (what the page's extraction script
returns on each poll, whether the CDP connection succeeds, whether the
external synthesis process succeeds, which engines have matching tabs,
the wall-clock timestamp) are inputs of the embedded functions; the
functions themselves follow the JavaScript source line by line.
-/

namespace ClipboardSearch

/-! ### Stability-polling extractor (collect.js, extractFromTab)

One iteration of the poll loop either evaluates the engine's extraction
script successfully — yielding a string, where `result?.result?.value || ""`
has already collapsed null/undefined to the empty string — or throws,
which the inner `catch (evalErr)` absorbs, leaving the loop state
untouched.  A polling run is the finite list of loop iterations that
happen before the deadline. -/

/-- One poll of the extraction script: either the evaluation threw
(`err`, absorbed by the inner catch) or it produced the string `t`
(possibly empty). -/
inductive Poll where
  | err : Poll
  | text : String → Poll
deriving DecidableEq, Repr

/-- The mutable state of the poll loop in `extractFromTab`:
`let lastText = ""; let stableCount = 0;`. -/
structure PState where
  lastText : String
  stableCount : Nat
deriving DecidableEq, Repr

/-- Initial loop state of `extractFromTab`. -/
def initState : PState := ⟨"", 0⟩

/-- Constant `STABLE_CHECKS = 3` from collect.js. -/
def STABLE_CHECKS : Nat := 3

/-- One iteration of the poll loop body of `extractFromTab`:

```js
const text = result?.result?.value || "";
if (text.length > 0 && text === lastText) {
  stableCount++;
  if (stableCount >= STABLE_CHECKS) return text;
} else {
  stableCount = 0;
  if (text.length > 0) lastText = text;
}
```

`Sum.inr t` is the early `return text`; `Sum.inl st` is the state carried
to the next poll.  An `err` poll is the inner catch: state unchanged. -/
def stepPoll (st : PState) (p : Poll) : PState ⊕ String :=
  match p with
  | .err => Sum.inl st
  | .text t =>
    if 0 < t.length ∧ t = st.lastText then
      if STABLE_CHECKS ≤ st.stableCount + 1 then Sum.inr t
      else Sum.inl ⟨st.lastText, st.stableCount + 1⟩
    else
      Sum.inl ⟨if 0 < t.length then t else st.lastText, 0⟩

/-- Run the poll loop over the polls that happen before the deadline,
threading the state; an early stable `return text` short-circuits. -/
def runPolls : PState → List Poll → PState ⊕ String
  | st, [] => Sum.inl st
  | st, p :: ps =>
    match stepPoll st p with
    | Sum.inr t => Sum.inr t
    | Sum.inl st2 => runPolls st2 ps

/-- The three exit paths of the poll section of `extractFromTab`:
stable return, deadline with a captured partial answer, deadline with
nothing captured (`return null`). -/
inductive ExtractOutcome where
  | stable : String → ExtractOutcome
  | timedOut : String → ExtractOutcome
  | noAnswer : ExtractOutcome
deriving DecidableEq, Repr

/-- The poll loop of `extractFromTab` followed by its post-loop branch:

```js
if (lastText.length > 0) { return lastText + "\n\n> [...]"; }
return null;
```

annotated here as `timedOut lastText` / `noAnswer`. -/
def extractLoop (polls : List Poll) : ExtractOutcome :=
  match runPolls initState polls with
  | Sum.inr t => ExtractOutcome.stable t
  | Sum.inl st =>
    if 0 < st.lastText.length then ExtractOutcome.timedOut st.lastText
    else ExtractOutcome.noAnswer

/-- The annotation appended to a timed-out partial response in
`extractFromTab`. -/
def timeoutMarker : String := "\n\n> [Response may be incomplete - timed out]"

/-- External behaviour seen by one `extractFromTab` call: whether
`CDP({target, ...})` succeeds, and the outcome of each poll that happens
before the deadline. -/
structure ExtractEnv where
  connOk : Bool
  polls : List Poll
deriving DecidableEq, Repr

/-- The value `extractFromTab` returns to its caller (`string | null`,
embedded as `Option String`), together with whether `client.close()` was
invoked by the `finally` block.  The outer catch turns a connection error
into `return null`; the `finally` closes the client exactly when one was
assigned. -/
def extractFromTabRun (env : ExtractEnv) : Option String × Bool :=
  if env.connOk then
    (match extractLoop env.polls with
     | ExtractOutcome.stable t => some t
     | ExtractOutcome.timedOut t => some (t ++ timeoutMarker)
     | ExtractOutcome.noAnswer => none,
     true)
  else (none, false)

/-- Just the returned value of `extractFromTab` (`string | null`). -/
def extractValue (env : ExtractEnv) : Option String :=
  (extractFromTabRun env).1

/-- The non-empty text a poll observed, if any: `err` polls and empty
strings observe nothing. -/
def pollText : Poll → Option String
  | .err => none
  | .text t => if 0 < t.length then some t else none

/-- The last non-empty value observed over a polling run, or `none` if no
poll ever returned non-empty text. -/
def lastNonEmpty (polls : List Poll) : Option String :=
  (polls.filterMap pollText).getLast?

/-! ### Slug generation (collect.js, slugify)

```js
function slugify(text, maxLen = 60) {
  return text
    .toLowerCase()
    .replace(/[^a-z0-9]+/g, "-")
    .replace(/^-+|-+$/g, "")
    .slice(0, maxLen)
    .replace(<regex: -+$>, "");
}
```

`toLowerCase` is modelled by the ASCII `Char.toLower` (the engine query
strings the program slugifies are processed per character; characters
outside the ASCII range are not in `[a-z0-9]` and are collapsed to
hyphens either way).  The global replacement of `[^a-z0-9]+` runs by a
single `-` is modelled as a per-character map to `-` followed by
collapsing adjacent hyphens: every hyphen of the mapped string comes from
a non-alphanumeric character, so collapsing adjacent hyphens is exactly
collapsing non-alphanumeric runs.  Both call sites use the default
`maxLen = 60`. -/

/-- Is `c` in the character class `[a-z0-9]` of the slugify regex? -/
def isSlugChar (c : Char) : Bool :=
  (97 ≤ c.toNat && c.toNat ≤ 122) || (48 ≤ c.toNat && c.toNat ≤ 57)

/-- Per-character part of `.replace(/[^a-z0-9]+/g, "-")`. -/
def toHyphen (c : Char) : Char := if isSlugChar c then c else '-'

/-- Collapse adjacent hyphens, completing `.replace(/[^a-z0-9]+/g, "-")`:
a run of non-alphanumeric characters became a run of hyphens and is
collapsed to a single hyphen. -/
def squeezeHyphens : List Char → List Char
  | [] => []
  | c :: cs =>
    match squeezeHyphens cs with
    | [] => [c]
    | d :: ds => if c = '-' ∧ d = '-' then d :: ds else c :: d :: ds

/-- Remove the maximal run of trailing hyphens: the `-+$` alternative of
`.replace(<regex: ^-+|-+$>, "")`, and the final `.replace(<regex: -+$>, "")`. -/
def dropTrailingHyphens : List Char → List Char
  | [] => []
  | c :: cs =>
    match dropTrailingHyphens cs with
    | [] => if c = '-' then [] else [c]
    | d :: ds => c :: d :: ds

/-- Body of `slugify` on the character list of the query: lowercase, collapse
non-alphanumeric runs to single hyphens, strip leading and trailing
hyphens, slice to 60 characters, strip trailing hyphens again. -/
def slugifyData (l : List Char) : List Char :=
  dropTrailingHyphens (List.take 60 (dropTrailingHyphens
    (List.dropWhile (fun c => c == '-')
      (squeezeHyphens ((l.map Char.toLower).map toHyphen)))))

/-- Function `slugify` from collect.js. -/
def slugify (q : String) : String := ⟨slugifyData q.data⟩

/-- Is `c` allowed in a slug, i.e. in `[a-z0-9]` or a hyphen? -/
def isSlugOrHyphen (c : Char) : Bool := isSlugChar c || c == '-'

/-- No two adjacent hyphens occur in the list. -/
def noDoubleHyphen : List Char → Bool
  | c :: d :: cs => !(c == '-' && d == '-') && noDoubleHyphen (d :: cs)
  | _ => true

/-- Two queries differ only in letter case or by substituting one
punctuation (non-alphanumeric) character for another: they have the same
length and, position by position, either the lowercased characters agree
or both lowercased characters fall outside `[a-z0-9]`. -/
def sameModCase : List Char → List Char → Bool
  | [], [] => true
  | c :: cs, d :: ds =>
    (Char.toLower c == Char.toLower d ||
      (!isSlugChar (Char.toLower c) && !isSlugChar (Char.toLower d)))
      && sameModCase cs ds
  | _, _ => false

/-! ### Run-folder naming (collect.js, collectAll / main)

```js
const slug = slugify(query);
const ts = new Date().toISOString().replace(/[:.]/g, "-").slice(0, 19);
const folderName = `${ts}_${slug}`;
```

The ISO timestamp string produced by `toISOString()` is an input here;
its fixed format `YYYY-MM-DDTHH:MM:SS.mmmZ` is captured by `isoShape`. -/

/-- Per-character part of `.replace(/[:.]/g, "-")`. -/
def tsMap (c : Char) : Char := if c = ':' ∨ c = '.' then '-' else c

/-- The 19-character timestamp component: `[:.]` replaced by `-`, then
`slice(0, 19)` — second granularity, milliseconds cut off. -/
def tsSlice (iso : String) : String := ⟨(iso.data.map tsMap).take 19⟩

/-- The run folder name: timestamp component, underscore, query slug. -/
def folderName (iso q : String) : String := tsSlice iso ++ "_" ++ slugify q

/-- The fixed shape of the first 19 characters of an ISO-8601 timestamp:
`some c` positions hold exactly `c`, `none` positions hold a digit. -/
def isoShape : List (Option Char) :=
  [none, none, none, none, some '-', none, none, some '-', none, none,
   some 'T', none, none, some ':', none, none, some ':', none, none]

/-- Does the list start with characters matching the shape? -/
def matchesShape : List (Option Char) → List Char → Bool
  | [], _ => true
  | _ :: _, [] => false
  | some d :: sh, c :: cs => c == d && matchesShape sh cs
  | none :: sh, c :: cs => c.isDigit && matchesShape sh cs

/-! ### Collection pipeline (collect.js, collectAll)

Per engine, `collectAll` looks for a matching tab; with no tab it records
a `no_tab` entry and `continue`s (writing nothing), otherwise it runs
`extractFromTab` and writes `<slug>.md` — with the response text if the
returned value is truthy (an `ok` entry carrying `chars` and pushing onto
`responseFiles`), else with a `*No response collected*` body (a `failed`
entry).  `prompt.md` is written before the loop.  Synthesis runs when
`doSynthesize && responseFiles.length >= 2`; `synthesis.md` exists
afterwards iff the external `claude` process succeeded.  (The HTML viewer
written by `generateViewer` belongs to the presentation layer and is
outside this model.) -/

/-- The per-engine configuration fields of the ENGINES registry that the
pipeline bookkeeping uses. -/
structure Engine where
  name : String
  slug : String
deriving DecidableEq, Repr

/-- One element of the `responses` array built by `collectAll`. -/
structure EngResponse where
  engine : String
  slug : String
  status : String
  chars : Option Nat
  file : Option String
deriving DecidableEq, Repr

/-- JavaScript truthiness of the `string | null` value returned by
`extractFromTab`: `null` and the empty string are falsy. -/
def jsTruthy : Option String → Bool
  | none => false
  | some t => decide (0 < t.length)

/-- One iteration of the engine loop of `collectAll` for engine `e`:
`run = none` models "no matching tab".  Returns the `responses` entry,
the `responseFiles` entry (if any), and the files written. -/
def engineStep (e : Engine) (run : Option ExtractEnv) :
    EngResponse × Option String × List String :=
  match run with
  | none => (⟨e.name, e.slug, "no_tab", none, none⟩, none, [])
  | some env =>
    let text := extractValue env
    if jsTruthy text then
      (⟨e.name, e.slug, "ok", some ((text.getD "").length), some (e.slug ++ ".md")⟩,
       some (e.slug ++ ".md"), [e.slug ++ ".md"])
    else
      (⟨e.name, e.slug, "failed", none, none⟩, none, [e.slug ++ ".md"])

/-- External behaviour seen by one `collectAll` run: the option flag, for
each configured engine its matching tab's extraction environment (or none
when no tab matches), and whether the external synthesis process
succeeds. -/
structure CollectEnv where
  doSynthesize : Bool
  engineRuns : List (Engine × Option ExtractEnv)
  synthesisSucceeds : Bool
deriving DecidableEq, Repr

/-- The structured result of `collectAll`, plus bookkeeping of the files
it wrote into the run directory. -/
structure CollectResult where
  responses : List EngResponse
  synthAttempted : Bool
  synthesisFile : Option String
  files : List String
deriving DecidableEq, Repr

/-- The collection pipeline `collectAll`. -/
def collectAll (env : CollectEnv) : CollectResult :=
  let steps := env.engineRuns.map (fun er => engineStep er.1 er.2)
  let responses := steps.map (fun s => s.1)
  let responseFiles := steps.filterMap (fun s => s.2.1)
  let synthAttempted := env.doSynthesize && decide (2 ≤ responseFiles.length)
  let wrote := synthAttempted && env.synthesisSucceeds
  { responses := responses
    synthAttempted := synthAttempted
    synthesisFile := if wrote then some "synthesis.md" else none
    files := "prompt.md" :: (steps.map (fun s => s.2.2)).flatten
      ++ (if wrote then ["synthesis.md"] else []) }

/-- Number of per-engine results with status `"ok"`. -/
def countOk (rs : List EngResponse) : Nat :=
  (rs.filter (fun r => r.status == "ok")).length

/-! ### Small-step lemmas about the poll loop -/

theorem stepPoll_err (st : PState) : stepPoll st Poll.err = Sum.inl st := rfl

theorem stepPoll_ret (st : PState) (t : String) (ht : 0 < t.length)
    (hl : st.lastText = t) (h : STABLE_CHECKS ≤ st.stableCount + 1) :
    stepPoll st (Poll.text t) = Sum.inr t := by
  simp only [stepPoll]
  rw [if_pos ⟨ht, hl.symm⟩, if_pos h]

theorem stepPoll_incr (st : PState) (t : String) (ht : 0 < t.length)
    (hl : st.lastText = t) (h : ¬ STABLE_CHECKS ≤ st.stableCount + 1) :
    stepPoll st (Poll.text t) = Sum.inl ⟨st.lastText, st.stableCount + 1⟩ := by
  simp only [stepPoll]
  rw [if_pos ⟨ht, hl.symm⟩, if_neg h]

theorem stepPoll_fresh (st : PState) (t : String) (ht : 0 < t.length)
    (hl : t ≠ st.lastText) :
    stepPoll st (Poll.text t) = Sum.inl ⟨t, 0⟩ := by
  simp only [stepPoll]
  rw [if_neg (fun hc => hl hc.2), if_pos ht]

theorem stepPoll_emptyText {st : PState} {t : String} (ht : ¬ 0 < t.length) :
    stepPoll st (Poll.text t) = Sum.inl ⟨st.lastText, 0⟩ := by
  simp only [stepPoll]
  rw [if_neg (fun hc => ht hc.1), if_neg ht]

theorem runPolls_cons_inl {st st2 : PState} {p : Poll} (ps : List Poll)
    (h : stepPoll st p = Sum.inl st2) :
    runPolls st (p :: ps) = runPolls st2 ps := by
  simp [runPolls, h]

theorem runPolls_cons_inr {st : PState} {p : Poll} {t : String} (ps : List Poll)
    (h : stepPoll st p = Sum.inr t) :
    runPolls st (p :: ps) = Sum.inr t := by
  simp [runPolls, h]

theorem runPolls_append (st : PState) (l1 l2 : List Poll) :
    runPolls st (l1 ++ l2) =
      match runPolls st l1 with
      | Sum.inl st2 => runPolls st2 l2
      | Sum.inr t => Sum.inr t := by
  induction l1 generalizing st with
  | nil => simp [runPolls]
  | cons p ps ih =>
    cases h : stepPoll st p with
    | inl st2 =>
      rw [List.cons_append, runPolls_cons_inl (ps ++ l2) h,
        runPolls_cons_inl ps h, ih]
    | inr t =>
      rw [List.cons_append, runPolls_cons_inr (ps ++ l2) h,
        runPolls_cons_inr ps h]

/-- Three consecutive polls of a non-empty `t` that already equals
`lastText` always trigger the stable return of `t`. -/
theorem runPolls_three_of_match (st : PState) (t : String) (rest : List Poll)
    (ht : 0 < t.length) (hl : st.lastText = t) :
    runPolls st (Poll.text t :: Poll.text t :: Poll.text t :: rest) = Sum.inr t := by
  by_cases h1 : STABLE_CHECKS ≤ st.stableCount + 1
  · exact runPolls_cons_inr _ (stepPoll_ret st t ht hl h1)
  · by_cases h2 : STABLE_CHECKS ≤ st.stableCount + 1 + 1
    · calc runPolls st (Poll.text t :: Poll.text t :: Poll.text t :: rest)
          = runPolls ⟨st.lastText, st.stableCount + 1⟩ (Poll.text t :: Poll.text t :: rest) :=
            runPolls_cons_inl _ (stepPoll_incr st t ht hl h1)
        _ = Sum.inr t :=
            runPolls_cons_inr _ (stepPoll_ret ⟨st.lastText, st.stableCount + 1⟩ t ht hl h2)
    · have h3 : STABLE_CHECKS ≤ st.stableCount + 1 + 1 + 1 := by
        simp only [STABLE_CHECKS] at h1 h2 ⊢; omega
      calc runPolls st (Poll.text t :: Poll.text t :: Poll.text t :: rest)
          = runPolls ⟨st.lastText, st.stableCount + 1⟩ (Poll.text t :: Poll.text t :: rest) :=
            runPolls_cons_inl _ (stepPoll_incr st t ht hl h1)
        _ = runPolls ⟨st.lastText, st.stableCount + 1 + 1⟩ (Poll.text t :: rest) :=
            runPolls_cons_inl _ (stepPoll_incr ⟨st.lastText, st.stableCount + 1⟩ t ht hl h2)
        _ = Sum.inr t :=
            runPolls_cons_inr _ (stepPoll_ret ⟨st.lastText, st.stableCount + 1 + 1⟩ t ht hl h3)

/-- Four consecutive polls of the same non-empty value trigger the stable
return of that value, from any loop state. -/
theorem runPolls_four (st : PState) (t : String) (rest : List Poll)
    (ht : 0 < t.length) :
    runPolls st (Poll.text t :: Poll.text t :: Poll.text t :: Poll.text t :: rest)
      = Sum.inr t := by
  by_cases hl : t = st.lastText
  · by_cases h1 : STABLE_CHECKS ≤ st.stableCount + 1
    · exact runPolls_cons_inr _ (stepPoll_ret st t ht hl.symm h1)
    · calc runPolls st (Poll.text t :: Poll.text t :: Poll.text t :: Poll.text t :: rest)
          = runPolls ⟨st.lastText, st.stableCount + 1⟩
              (Poll.text t :: Poll.text t :: Poll.text t :: rest) :=
            runPolls_cons_inl _ (stepPoll_incr st t ht hl.symm h1)
        _ = Sum.inr t := runPolls_three_of_match _ t rest ht hl.symm
  · calc runPolls st (Poll.text t :: Poll.text t :: Poll.text t :: Poll.text t :: rest)
        = runPolls ⟨t, 0⟩ (Poll.text t :: Poll.text t :: Poll.text t :: rest) :=
          runPolls_cons_inl _ (stepPoll_fresh st t ht hl)
      _ = Sum.inr t := runPolls_three_of_match _ t rest ht rfl

/-- A stable early return can only be produced by a `text` poll carrying
exactly the returned value. -/
theorem stepPoll_inr {st : PState} {p : Poll} {v : String}
    (h : stepPoll st p = Sum.inr v) : p = Poll.text v := by
  cases p with
  | err => simp [stepPoll] at h
  | text t =>
    simp only [stepPoll] at h
    split at h
    · split at h
      · cases h; rfl
      · cases h
    · cases h

/-- If the loop ends at the deadline in state `st`, then `st.lastText` is
the last non-empty value any poll observed (or the initial `lastText` if
none was observed). -/
theorem lastText_runPolls (polls : List Poll) (st0 st : PState)
    (h : runPolls st0 polls = Sum.inl st) :
    st.lastText = (lastNonEmpty polls).getD st0.lastText := by
  induction polls generalizing st0 with
  | nil =>
    simp only [runPolls] at h
    cases h
    simp [lastNonEmpty]
  | cons p ps ih =>
    cases e : stepPoll st0 p with
    | inr t => rw [runPolls_cons_inr ps e] at h; cases h
    | inl st1 =>
      rw [runPolls_cons_inl ps e] at h
      have hih := ih st1 h
      cases hp : pollText p with
      | none =>
        have hlast : st1.lastText = st0.lastText := by
          cases p with
          | err => cases e; rfl
          | text t =>
            simp only [pollText] at hp
            split at hp
            · cases hp
            · rw [stepPoll_emptyText (by assumption)] at e
              cases e; rfl
        have : lastNonEmpty (p :: ps) = lastNonEmpty ps := by
          simp [lastNonEmpty, List.filterMap_cons, hp]
        rw [this, hih, hlast]
      | some t =>
        have hpt : p = Poll.text t ∧ 0 < t.length := by
          cases p with
          | err => simp [pollText] at hp
          | text u =>
            simp only [pollText] at hp
            split at hp
            · cases hp; exact ⟨rfl, by assumption⟩
            · cases hp
        have hlast : st1.lastText = t := by
          rcases hpt with ⟨hpeq, hlen⟩
          subst hpeq
          simp only [stepPoll] at e
          split at e
          · split at e
            · cases e
            · cases e
              rename_i hcond _
              exact hcond.2.symm
          · cases e
            simp [hlen]
        have hfm : (p :: ps).filterMap pollText = t :: ps.filterMap pollText := by
          simp [List.filterMap_cons, hp]
        cases hrest : ps.filterMap pollText with
        | nil =>
          have h1 : lastNonEmpty (p :: ps) = some t := by
            simp [lastNonEmpty, hfm, hrest]
          have h2 : lastNonEmpty ps = none := by
            simp [lastNonEmpty, hrest]
          rw [h1, hih, h2]
          simp [hlast]
        | cons x xs =>
          have h1 : lastNonEmpty (p :: ps) = lastNonEmpty ps := by
            simp [lastNonEmpty, hfm, hrest, List.getLast?_cons_cons]
          rw [h1, hih]
          cases ho : lastNonEmpty ps with
          | some y => simp
          | none =>
            rw [lastNonEmpty, hrest] at ho
            simp at ho

/-- A value observed by some poll is non-empty. -/
theorem lastNonEmpty_pos {polls : List Poll} {t : String}
    (h : lastNonEmpty polls = some t) : 0 < t.length := by
  have hmem : t ∈ polls.filterMap pollText :=
    List.mem_of_getLast?_eq_some h
  rcases List.mem_filterMap.mp hmem with ⟨p, _, hp⟩
  cases p with
  | err => simp [pollText] at hp
  | text u =>
    simp only [pollText] at hp
    split at hp
    · cases hp; assumption
    · cases hp

/-! ### Claims about the stability-polling extractor -/

/-- C1, counterexample: an engine whose extraction script returns the same
non-empty value `"a"` on (exactly) 3 consecutive polls before the deadline
does **not** yield `"a"` as the stable result — the loop needs a fourth
identical poll, because the first poll of a fresh value only records it in
`lastText` with `stableCount = 0`.  The run ends at the deadline as a
timed-out partial result instead. -/
theorem claim1_counterexample :
    extractLoop (List.replicate 3 (Poll.text "a")) = ExtractOutcome.timedOut "a" ∧
    extractLoop (List.replicate 3 (Poll.text "a")) ≠ ExtractOutcome.stable "a" := by
  decide

/-- C1, amended: for every engine profile and every polling run in which,
after any prefix of polls that has not already produced a stable return,
the extraction script returns the same non-empty text value on at least 4
consecutive polls before the deadline, `extractFromTab` returns that value
as the final stable result, regardless of how many polls occur beyond the
fourth. -/
theorem claim1_stability (pre post : List Poll) (st : PState) (t : String)
    (hpre : runPolls initState pre = Sum.inl st) (ht : 0 < t.length) :
    extractLoop
        (pre ++ Poll.text t :: Poll.text t :: Poll.text t :: Poll.text t :: post)
      = ExtractOutcome.stable t ∧
    extractValue ⟨true,
        pre ++ Poll.text t :: Poll.text t :: Poll.text t :: Poll.text t :: post⟩
      = some t := by
  have hr : runPolls initState
      (pre ++ Poll.text t :: Poll.text t :: Poll.text t :: Poll.text t :: post)
      = Sum.inr t := by
    rw [runPolls_append, hpre]
    exact runPolls_four st t post ht
  have hloop : extractLoop
      (pre ++ Poll.text t :: Poll.text t :: Poll.text t :: Poll.text t :: post)
      = ExtractOutcome.stable t := by
    unfold extractLoop
    rw [hr]
  exact ⟨hloop, by simp [extractValue, extractFromTabRun, hloop]⟩

/-- C1, witness for the amended claim at a concrete input: 4 polls of
`"a"` followed by a later differing poll still return `"a"` stably. -/
theorem claim1_stability_witness :
    extractLoop
        ([Poll.err] ++ Poll.text "a" :: Poll.text "a" :: Poll.text "a" ::
          Poll.text "a" :: [Poll.text "b"])
      = ExtractOutcome.stable "a" ∧
    extractValue ⟨true,
        [Poll.err] ++ Poll.text "a" :: Poll.text "a" :: Poll.text "a" ::
          Poll.text "a" :: [Poll.text "b"]⟩
      = some "a" :=
  claim1_stability [Poll.err] [Poll.text "b"] initState "a" (by decide) (by decide)

/-- C3: if a polling run observes some non-empty text but never triggers
the stable return before the deadline, the extractor reports a timed-out
partial result whose text is exactly the last observed non-empty value
(the returned string is that value with the timeout annotation appended). -/
theorem claim3_timeout_partial (polls : List Poll) (st : PState) (t : String)
    (hrun : runPolls initState polls = Sum.inl st)
    (hobs : lastNonEmpty polls = some t) :
    extractLoop polls = ExtractOutcome.timedOut t ∧
    extractValue ⟨true, polls⟩ = some (t ++ timeoutMarker) := by
  have hlen : 0 < t.length := lastNonEmpty_pos hobs
  have hlast : st.lastText = t := by
    have := lastText_runPolls polls initState st hrun
    rw [hobs] at this
    simpa [initState] using this
  have hloop : extractLoop polls = ExtractOutcome.timedOut t := by
    unfold extractLoop
    rw [hrun]
    show (if 0 < st.lastText.length then ExtractOutcome.timedOut st.lastText
      else ExtractOutcome.noAnswer) = ExtractOutcome.timedOut t
    rw [hlast, if_pos hlen]
  exact ⟨hloop, by simp [extractValue, extractFromTabRun, hloop]⟩

/-- C3, witness: a run that sees `"a"` then `"b"` and then times out
reports a timed-out partial result carrying `"b"`. -/
theorem claim3_timeout_partial_witness :
    extractLoop [Poll.text "a", Poll.text "b"] = ExtractOutcome.timedOut "b" ∧
    extractValue ⟨true, [Poll.text "a", Poll.text "b"]⟩
      = some ("b" ++ timeoutMarker) :=
  claim3_timeout_partial [Poll.text "a", Poll.text "b"] ⟨"b", 0⟩ "b"
    (by decide) (by decide)

/-- C4: (1) a poll whose text changed (differs from `lastText`, or dropped
to empty) resets the stability counter to 0, in particular after `N ≥ 1`
stable polls; (2) whenever the loop returns a stable value, the poll at
which it returns carries exactly that value — the returned stable value
equals the value of the last executed poll. -/
theorem claim4_reset_and_last_poll :
    (∀ (st : PState) (t : String), 1 ≤ st.stableCount →
      ¬ (0 < t.length ∧ t = st.lastText) →
      stepPoll st (Poll.text t)
        = Sum.inl ⟨if 0 < t.length then t else st.lastText, 0⟩) ∧
    (∀ (st : PState) (polls : List Poll) (v : String),
      runPolls st polls = Sum.inr v →
      ∃ pre rest, polls = pre ++ Poll.text v :: rest ∧
        runPolls st (pre ++ [Poll.text v]) = Sum.inr v) := by
  constructor
  · intro st t _ hch
    simp only [stepPoll]
    rw [if_neg hch]
  · intro st polls v h
    induction polls generalizing st with
    | nil => simp [runPolls] at h
    | cons p ps ih =>
      cases e : stepPoll st p with
      | inr w =>
        rw [runPolls_cons_inr ps e] at h
        cases h
        have hp : p = Poll.text v := stepPoll_inr e
        refine ⟨[], ps, by rw [hp]; rfl, ?_⟩
        rw [List.nil_append]
        subst hp
        exact runPolls_cons_inr [] e
      | inl st2 =>
        rw [runPolls_cons_inl ps e] at h
        rcases ih st2 h with ⟨pre, rest, hsplit, hret⟩
        refine ⟨p :: pre, rest, by rw [hsplit]; rfl, ?_⟩
        rw [List.cons_append, runPolls_cons_inl (pre ++ [Poll.text v]) e]
        exact hret

/-- C4, witness: a changed poll after 2 stable polls resets the counter,
and a concrete stable run returns the value of its last executed poll. -/
theorem claim4_reset_and_last_poll_witness :
    stepPoll ⟨"x", 2⟩ (Poll.text "y")
      = Sum.inl ⟨if 0 < "y".length then "y" else "x", 0⟩ ∧
    ∃ pre rest,
      ([Poll.text "a", Poll.text "a", Poll.text "a", Poll.text "a"] : List Poll)
        = pre ++ Poll.text "a" :: rest ∧
      runPolls ⟨"", 0⟩ (pre ++ [Poll.text "a"]) = Sum.inr "a" :=
  ⟨claim4_reset_and_last_poll.1 ⟨"x", 2⟩ "y" (by decide) (by decide),
   claim4_reset_and_last_poll.2 ⟨"", 0⟩
     [Poll.text "a", Poll.text "a", Poll.text "a", Poll.text "a"] "a" (by decide)⟩

/-- C5: (1) if no poll before the deadline ever observes non-empty text
(`err` polls and empty returns only, which covers a script erroring on
every poll), the extractor reports "no answer found" — `extractFromTab`
returns null, not a timed-out partial result; (2) a poll returning empty
text never overwrites a previously captured non-empty `lastText`. -/
theorem claim5_no_answer (polls : List Poll)
    (hempty : ∀ p ∈ polls, pollText p = none) :
    (extractLoop polls = ExtractOutcome.noAnswer ∧
     extractValue ⟨true, polls⟩ = none) ∧
    (∀ (st : PState) (t : String), 0 < st.lastText.length → ¬ 0 < t.length →
      stepPoll st (Poll.text t) = Sum.inl ⟨st.lastText, 0⟩) := by
  have hrun : ∀ (ps : List Poll) (st0 : PState), (∀ p ∈ ps, pollText p = none) →
      ∃ st, runPolls st0 ps = Sum.inl st ∧ st.lastText = st0.lastText := by
    intro ps
    induction ps with
    | nil => exact fun st0 _ => ⟨st0, rfl, rfl⟩
    | cons p ps ih =>
      intro st0 hall
      have hp := hall p (List.mem_cons_self p ps)
      have hstep : ∃ st1, stepPoll st0 p = Sum.inl st1 ∧ st1.lastText = st0.lastText := by
        cases p with
        | err => exact ⟨st0, rfl, rfl⟩
        | text t =>
          simp only [pollText] at hp
          split at hp
          · cases hp
          · exact ⟨⟨st0.lastText, 0⟩, stepPoll_emptyText (by assumption), rfl⟩
      rcases hstep with ⟨st1, hstep, hlast⟩
      rcases ih st1 (fun q hq => hall q (List.mem_cons_of_mem p hq)) with ⟨st, hst, hl⟩
      exact ⟨st, by rw [runPolls_cons_inl ps hstep]; exact hst, by rw [hl, hlast]⟩
  rcases hrun polls initState hempty with ⟨st, hst, hlast⟩
  have hloop : extractLoop polls = ExtractOutcome.noAnswer := by
    unfold extractLoop
    rw [hst]
    show (if 0 < st.lastText.length then ExtractOutcome.timedOut st.lastText
      else ExtractOutcome.noAnswer) = ExtractOutcome.noAnswer
    rw [hlast]
    simp [initState]
  refine ⟨⟨hloop, by simp [extractValue, extractFromTabRun, hloop]⟩, ?_⟩
  intro st' t _ ht
  exact stepPoll_emptyText ht

/-- C5, witness: a run of one eval error and one empty poll yields "no
answer found", and an empty poll leaves a captured `lastText` intact. -/
theorem claim5_no_answer_witness :
    (extractLoop [Poll.err, Poll.text ""] = ExtractOutcome.noAnswer ∧
     extractValue ⟨true, [Poll.err, Poll.text ""]⟩ = none) ∧
    stepPoll ⟨"kept", 1⟩ (Poll.text "") = Sum.inl ⟨"kept", 0⟩ :=
  ⟨(claim5_no_answer [Poll.err, Poll.text ""] (by decide)).1,
   (claim5_no_answer [Poll.err, Poll.text ""] (by decide)).2
     ⟨"kept", 1⟩ "" (by decide) (by decide)⟩

/-- C9: `extractFromTab` is a total function into `string | null`
(exceptions cannot escape): (1) the `finally` block invokes
`client.close()` exactly when a CDP client was opened — in particular on
every exit path (stable, timed out, no answer) once the connection
succeeded; (2) a connection error is absorbed into a null return with no
client to close; (3) a per-poll evaluation error is absorbed by the inner
catch and the loop continues with unchanged state. -/
theorem claim9_no_throw_and_close :
    (∀ env : ExtractEnv, (extractFromTabRun env).2 = env.connOk) ∧
    (∀ polls : List Poll, extractFromTabRun ⟨false, polls⟩ = (none, false)) ∧
    (∀ (st : PState) (ps : List Poll),
      runPolls st (Poll.err :: ps) = runPolls st ps) := by
  refine ⟨?_, ?_, ?_⟩
  · intro env
    unfold extractFromTabRun
    cases h : env.connOk <;> simp [h]
  · intro polls
    rfl
  · intro st ps
    exact runPolls_cons_inl ps (stepPoll_err st)

/-! ### Lemmas about slug generation -/

theorem squeezeHyphens_cons_nil {as : List Char} (a : Char)
    (h : squeezeHyphens as = []) : squeezeHyphens (a :: as) = [a] := by
  simp only [squeezeHyphens, h]

theorem squeezeHyphens_cons_cons {as : List Char} {d : Char} {ds : List Char}
    (a : Char) (h : squeezeHyphens as = d :: ds) :
    squeezeHyphens (a :: as)
      = if a = '-' ∧ d = '-' then d :: ds else a :: d :: ds := by
  simp only [squeezeHyphens, h]

theorem dropTrailingHyphens_cons_nil {as : List Char} (a : Char)
    (h : dropTrailingHyphens as = []) :
    dropTrailingHyphens (a :: as) = if a = '-' then [] else [a] := by
  simp only [dropTrailingHyphens, h]

theorem dropTrailingHyphens_cons_cons {as : List Char} {d : Char} {ds : List Char}
    (a : Char) (h : dropTrailingHyphens as = d :: ds) :
    dropTrailingHyphens (a :: as) = a :: d :: ds := by
  simp only [dropTrailingHyphens, h]

theorem toHyphen_slugOrHyphen (c : Char) : isSlugOrHyphen (toHyphen c) = true := by
  unfold toHyphen
  split
  · rename_i h
    simp [isSlugOrHyphen, h]
  · decide

theorem mem_squeezeHyphens {l : List Char} {c : Char}
    (h : c ∈ squeezeHyphens l) : c ∈ l := by
  induction l with
  | nil => simpa [squeezeHyphens] using h
  | cons a as ih =>
    cases hs : squeezeHyphens as with
    | nil =>
      rw [squeezeHyphens_cons_nil a hs] at h
      simp at h
      simp [h]
    | cons d ds =>
      rw [squeezeHyphens_cons_cons a hs] at h
      split at h
      · have hm : c ∈ squeezeHyphens as := by rw [hs]; exact h
        exact List.mem_cons_of_mem a (ih hm)
      · rcases List.mem_cons.mp h with rfl | h2
        · exact List.mem_cons_self _ _
        · have hm : c ∈ squeezeHyphens as := by rw [hs]; exact h2
          exact List.mem_cons_of_mem a (ih hm)

theorem mem_dropTrailingHyphens {l : List Char} {c : Char}
    (h : c ∈ dropTrailingHyphens l) : c ∈ l := by
  induction l with
  | nil => simpa [dropTrailingHyphens] using h
  | cons a as ih =>
    cases hs : dropTrailingHyphens as with
    | nil =>
      rw [dropTrailingHyphens_cons_nil a hs] at h
      split at h
      · simp at h
      · simp at h
        simp [h]
    | cons d ds =>
      rw [dropTrailingHyphens_cons_cons a hs] at h
      rcases List.mem_cons.mp h with rfl | h2
      · exact List.mem_cons_self _ _
      · have hm : c ∈ dropTrailingHyphens as := by rw [hs]; exact h2
        exact List.mem_cons_of_mem a (ih hm)

theorem ndh_tail {c : Char} {cs : List Char}
    (h : noDoubleHyphen (c :: cs) = true) : noDoubleHyphen cs = true := by
  cases cs with
  | nil => rfl
  | cons d ds =>
    simp only [noDoubleHyphen, Bool.and_eq_true] at h
    exact h.2

theorem ndh_head {a d : Char} {ds : List Char}
    (h : noDoubleHyphen (a :: d :: ds) = true) : ¬(a = '-' ∧ d = '-') := by
  simp only [noDoubleHyphen, Bool.and_eq_true] at h
  rcases h with ⟨h1, _⟩
  rintro ⟨rfl, rfl⟩
  simp at h1

theorem ndh_cons_of {a d : Char} {ds : List Char}
    (h1 : ¬(a = '-' ∧ d = '-')) (h2 : noDoubleHyphen (d :: ds) = true) :
    noDoubleHyphen (a :: d :: ds) = true := by
  simp only [noDoubleHyphen, Bool.and_eq_true]
  refine ⟨?_, h2⟩
  by_cases ha : a = '-'
  · by_cases hd : d = '-'
    · exact absurd ⟨ha, hd⟩ h1
    · simp [hd]
  · simp [ha]

theorem ndh_squeezeHyphens (l : List Char) :
    noDoubleHyphen (squeezeHyphens l) = true := by
  induction l with
  | nil => rfl
  | cons a as ih =>
    cases hs : squeezeHyphens as with
    | nil => rw [squeezeHyphens_cons_nil a hs]; rfl
    | cons d ds =>
      rw [hs] at ih
      rw [squeezeHyphens_cons_cons a hs]
      split
      · exact ih
      · rename_i hcond
        exact ndh_cons_of hcond ih

theorem squeezeHyphens_eq_self {l : List Char} (h : noDoubleHyphen l = true) :
    squeezeHyphens l = l := by
  induction l with
  | nil => rfl
  | cons a as ih =>
    have has : squeezeHyphens as = as := ih (ndh_tail h)
    cases as with
    | nil => rw [squeezeHyphens_cons_nil a has]
    | cons d ds =>
      rw [squeezeHyphens_cons_cons a has, if_neg (ndh_head h)]

theorem head?_dropTrailingHyphens {l : List Char} {c : Char}
    (h : (dropTrailingHyphens l).head? = some c) : l.head? = some c := by
  cases l with
  | nil => simp [dropTrailingHyphens] at h
  | cons a as =>
    cases hs : dropTrailingHyphens as with
    | nil =>
      rw [dropTrailingHyphens_cons_nil a hs] at h
      split at h
      · simp at h
      · simp only [List.head?_cons, Option.some.injEq] at h ⊢
        exact h
    | cons d ds =>
      rw [dropTrailingHyphens_cons_cons a hs] at h
      simp only [List.head?_cons, Option.some.injEq] at h ⊢
      exact h

theorem ndh_dropTrailingHyphens {l : List Char} (h : noDoubleHyphen l = true) :
    noDoubleHyphen (dropTrailingHyphens l) = true := by
  induction l with
  | nil => rfl
  | cons a as ih =>
    have hih := ih (ndh_tail h)
    cases hs : dropTrailingHyphens as with
    | nil =>
      rw [dropTrailingHyphens_cons_nil a hs]
      split
      · rfl
      · rfl
    | cons d ds =>
      rw [hs] at hih
      rw [dropTrailingHyphens_cons_cons a hs]
      have hd : as.head? = some d := head?_dropTrailingHyphens (by rw [hs]; rfl)
      cases as with
      | nil => simp at hd
      | cons b bs =>
        simp only [List.head?_cons, Option.some.injEq] at hd
        subst hd
        exact ndh_cons_of (ndh_head h) hih

theorem getLast?_dropTrailingHyphens {l : List Char} {c : Char}
    (h : (dropTrailingHyphens l).getLast? = some c) : c ≠ '-' := by
  induction l with
  | nil => simp [dropTrailingHyphens] at h
  | cons a as ih =>
    cases hs : dropTrailingHyphens as with
    | nil =>
      rw [dropTrailingHyphens_cons_nil a hs] at h
      split at h
      · simp at h
      · rename_i hne
        simp only [List.getLast?_singleton, Option.some.injEq] at h
        subst h
        exact hne
    | cons d ds =>
      rw [dropTrailingHyphens_cons_cons a hs, List.getLast?_cons_cons] at h
      exact ih (by rw [hs]; exact h)

theorem dropTrailingHyphens_eq_self {l : List Char}
    (h : ∀ c, l.getLast? = some c → c ≠ '-') : dropTrailingHyphens l = l := by
  induction l with
  | nil => rfl
  | cons a as ih =>
    cases as with
    | nil =>
      have h0 : dropTrailingHyphens ([] : List Char) = [] := rfl
      rw [dropTrailingHyphens_cons_nil a h0, if_neg (h a (by simp))]
    | cons b bs =>
      have hbs : dropTrailingHyphens (b :: bs) = b :: bs := by
        apply ih
        intro c hc
        exact h c (by rw [List.getLast?_cons_cons]; exact hc)
      rw [dropTrailingHyphens_cons_cons a hbs]

theorem length_dropTrailingHyphens_le (l : List Char) :
    (dropTrailingHyphens l).length ≤ l.length := by
  induction l with
  | nil => simp [dropTrailingHyphens]
  | cons a as ih =>
    cases hs : dropTrailingHyphens as with
    | nil =>
      rw [dropTrailingHyphens_cons_nil a hs]
      split <;> simp
    | cons d ds =>
      rw [dropTrailingHyphens_cons_cons a hs]
      rw [hs] at ih
      simpa using Nat.succ_le_succ ih

theorem ndh_cons_take : ∀ (cs : List Char) (c : Char) (n : Nat),
    noDoubleHyphen (c :: cs) = true → noDoubleHyphen (c :: cs.take n) = true := by
  intro cs
  induction cs with
  | nil =>
    intro c n _
    rw [List.take_nil]
    rfl
  | cons d ds ih =>
    intro c n h
    cases n with
    | zero => rfl
    | succ m =>
      rw [List.take_succ_cons]
      simp only [noDoubleHyphen, Bool.and_eq_true] at h ⊢
      exact ⟨h.1, ih d m h.2⟩

theorem ndh_take {l : List Char} (n : Nat) (h : noDoubleHyphen l = true) :
    noDoubleHyphen (l.take n) = true := by
  cases l with
  | nil =>
    rw [List.take_nil]
    rfl
  | cons c cs =>
    cases n with
    | zero => rfl
    | succ m =>
      rw [List.take_succ_cons]
      exact ndh_cons_take cs c m h

theorem head?_take_pos {l : List Char} {c : Char} {n : Nat} (hn : 0 < n)
    (h : (l.take n).head? = some c) : l.head? = some c := by
  cases l with
  | nil => simp [List.take_nil] at h
  | cons a as =>
    cases n with
    | zero => exact absurd hn (by simp)
    | succ m =>
      rw [List.take_succ_cons] at h
      simpa using h

theorem head?_dropWhileHyphens {l : List Char} {c : Char}
    (h : (l.dropWhile (fun x => x == '-')).head? = some c) : (c == '-') = false := by
  induction l with
  | nil => simp [List.dropWhile] at h
  | cons a as ih =>
    rw [List.dropWhile_cons] at h
    split at h
    · exact ih h
    · rename_i hp
      simp only [List.head?_cons, Option.some.injEq] at h
      subst h
      simpa using hp

theorem ndh_dropWhileHyphens {l : List Char} (h : noDoubleHyphen l = true) :
    noDoubleHyphen (l.dropWhile (fun x => x == '-')) = true := by
  induction l with
  | nil => rfl
  | cons a as ih =>
    rw [List.dropWhile_cons]
    split
    · exact ih (ndh_tail h)
    · exact h

theorem dropWhileHyphens_eq_self {l : List Char}
    (h : ∀ c, l.head? = some c → (c == '-') = false) :
    l.dropWhile (fun x => x == '-') = l := by
  cases l with
  | nil => rfl
  | cons a as => simp [List.dropWhile_cons, h a rfl]

/-- Equation for `Char.toLower`: the core definition lowers exactly the
range 65–90. -/
theorem toLower_def (c : Char) :
    Char.toLower c
      = if c.toNat ≥ 65 ∧ c.toNat ≤ 90 then Char.ofNat (c.toNat + 32) else c := rfl

theorem toLower_eq_self {c : Char} (h : isSlugOrHyphen c = true) :
    Char.toLower c = c := by
  rw [toLower_def, if_neg]
  simp only [isSlugOrHyphen, isSlugChar, Bool.or_eq_true, Bool.and_eq_true,
    decide_eq_true_eq, beq_iff_eq] at h
  rintro ⟨hc1, hc2⟩
  rcases h with (⟨h1, h2⟩ | ⟨h1, h2⟩) | rfl
  · omega
  · omega
  · simp at hc1

theorem toHyphen_eq_self {c : Char} (h : isSlugOrHyphen c = true) :
    toHyphen c = c := by
  simp only [isSlugOrHyphen, Bool.or_eq_true, beq_iff_eq] at h
  rcases h with h | rfl
  · unfold toHyphen
    rw [if_pos h]
  · decide

theorem slugifyData_all {l : List Char} {c : Char} (hc : c ∈ slugifyData l) :
    isSlugOrHyphen c = true := by
  unfold slugifyData at hc
  have h1 := mem_dropTrailingHyphens hc
  have h2 := List.take_subset 60 _ h1
  have h3 := mem_dropTrailingHyphens h2
  have h4 := List.dropWhile_subset _ h3
  have h5 := mem_squeezeHyphens h4
  rcases List.mem_map.mp h5 with ⟨a, _, rfl⟩
  exact toHyphen_slugOrHyphen a

theorem slugifyData_ndh (l : List Char) :
    noDoubleHyphen (slugifyData l) = true :=
  ndh_dropTrailingHyphens (ndh_take 60 (ndh_dropTrailingHyphens
    (ndh_dropWhileHyphens (ndh_squeezeHyphens _))))

theorem slugifyData_head {l : List Char} {c : Char}
    (h : (slugifyData l).head? = some c) : (c == '-') = false := by
  unfold slugifyData at h
  exact head?_dropWhileHyphens (head?_dropTrailingHyphens
    (head?_take_pos (by norm_num) (head?_dropTrailingHyphens h)))

theorem slugifyData_last {l : List Char} {c : Char}
    (h : (slugifyData l).getLast? = some c) : c ≠ '-' := by
  unfold slugifyData at h
  exact getLast?_dropTrailingHyphens h

theorem slugifyData_length (l : List Char) : (slugifyData l).length ≤ 60 := by
  unfold slugifyData
  calc (dropTrailingHyphens (List.take 60 (dropTrailingHyphens
        (List.dropWhile (fun c => c == '-')
          (squeezeHyphens ((l.map Char.toLower).map toHyphen)))))).length
      ≤ (List.take 60 (dropTrailingHyphens
        (List.dropWhile (fun c => c == '-')
          (squeezeHyphens ((l.map Char.toLower).map toHyphen))))).length :=
        length_dropTrailingHyphens_le _
    _ ≤ 60 := List.length_take_le _ _

/-- Function `slugifyData` is the identity on lists that are already in slug
form: slug characters only, no adjacent hyphens, no leading or trailing
hyphen, at most 60 characters. -/
theorem slugifyData_eq_self {s : List Char}
    (hall : ∀ c ∈ s, isSlugOrHyphen c = true)
    (hndh : noDoubleHyphen s = true)
    (hhead : ∀ c, s.head? = some c → (c == '-') = false)
    (hlast : ∀ c, s.getLast? = some c → c ≠ '-')
    (hlen : s.length ≤ 60) :
    slugifyData s = s := by
  have hmap1 : s.map Char.toLower = s :=
    (List.map_congr_left (fun a ha => toLower_eq_self (hall a ha))).trans
      (List.map_id s)
  have hmap2 : s.map toHyphen = s :=
    (List.map_congr_left (fun a ha => toHyphen_eq_self (hall a ha))).trans
      (List.map_id s)
  unfold slugifyData
  rw [hmap1, hmap2, squeezeHyphens_eq_self hndh, dropWhileHyphens_eq_self hhead,
    dropTrailingHyphens_eq_self hlast, List.take_of_length_le hlen,
    dropTrailingHyphens_eq_self hlast]

/-- Two queries related by `sameModCase` agree after the lowercase and
hyphen-mapping stages, hence everywhere further down the pipeline. -/
theorem sameModCase_map : ∀ {l1 l2 : List Char}, sameModCase l1 l2 = true →
    (l1.map Char.toLower).map toHyphen = (l2.map Char.toLower).map toHyphen := by
  intro l1
  induction l1 with
  | nil =>
    intro l2 h
    cases l2 with
    | nil => rfl
    | cons d ds => simp [sameModCase] at h
  | cons c cs ih =>
    intro l2 h
    cases l2 with
    | nil => simp [sameModCase] at h
    | cons d ds =>
      simp only [sameModCase, Bool.and_eq_true] at h
      rcases h with ⟨hcd, hrest⟩
      simp only [List.map_cons, List.cons.injEq]
      refine ⟨?_, ih hrest⟩
      rw [Bool.or_eq_true] at hcd
      rcases hcd with heq | hnn
      · exact congrArg toHyphen (beq_iff_eq.mp heq)
      · rw [Bool.and_eq_true] at hnn
        rcases hnn with ⟨h1, h2⟩
        have h1' : isSlugChar (Char.toLower c) = false := by simpa using h1
        have h2' : isSlugChar (Char.toLower d) = false := by simpa using h2
        simp [toHyphen, h1', h2']

/-- C6: slug generation is deterministic (equal queries yield equal
slugs), idempotent (`slugify (slugify q) = slugify q`), and two queries
that differ only in letter case or in punctuation (position by position:
lowercased characters agree or both are non-alphanumeric) yield the same
slug. -/
theorem claim6_slug_properties (q q1 q2 : String) :
    slugify q = slugify q ∧
    slugify (slugify q) = slugify q ∧
    (sameModCase q1.data q2.data = true → slugify q1 = slugify q2) := by
  refine ⟨rfl, ?_, ?_⟩
  · unfold slugify
    congr 1
    show slugifyData (slugifyData q.data) = slugifyData q.data
    exact slugifyData_eq_self (fun c hc => slugifyData_all hc) (slugifyData_ndh _)
      (fun c hc => slugifyData_head hc) (fun c hc => slugifyData_last hc)
      (slugifyData_length _)
  · intro h
    unfold slugify
    congr 1
    unfold slugifyData
    rw [sameModCase_map h]

/-- C6, witness: idempotence and case/punctuation invariance at concrete
queries (`"Hello, World!"` and `"hello?_world*"` differ only in case and
punctuation). -/
theorem claim6_slug_properties_witness :
    slugify (slugify "Hello, World!") = slugify "Hello, World!" ∧
    slugify "Hello, World!" = slugify "hello?_world*" :=
  ⟨(claim6_slug_properties "Hello, World!" "" "").2.1,
   (claim6_slug_properties "" "Hello, World!" "hello?_world*").2.2 (by decide)⟩

/-! ### Lemmas about run-folder naming -/

theorem tsMap_digit {c : Char} (h : c.isDigit = true) : tsMap c = c := by
  unfold tsMap
  rw [if_neg]
  rintro (rfl | rfl) <;> exact absurd h (by decide)

theorem matchesShape_length_le : ∀ (sh : List (Option Char)) (l : List Char),
    matchesShape sh l = true → sh.length ≤ l.length := by
  intro sh
  induction sh with
  | nil => intro l _; simp
  | cons o os ih =>
    intro l h
    cases l with
    | nil => cases o <;> simp [matchesShape] at h
    | cons c cs =>
      have hcs : matchesShape os cs = true := by
        cases o <;> · simp only [matchesShape, Bool.and_eq_true] at h; exact h.2
      simpa using Nat.succ_le_succ (ih cs hcs)

theorem matchesShape_take : ∀ (sh : List (Option Char)) (l : List Char),
    matchesShape sh l = true → matchesShape sh (l.take sh.length) = true := by
  intro sh
  induction sh with
  | nil => intro l _; rfl
  | cons o os ih =>
    intro l h
    cases l with
    | nil => cases o <;> simp [matchesShape] at h
    | cons c cs =>
      rw [List.length_cons, List.take_succ_cons]
      cases o with
      | none =>
        simp only [matchesShape, Bool.and_eq_true] at h ⊢
        exact ⟨h.1, ih cs h.2⟩
      | some d =>
        simp only [matchesShape, Bool.and_eq_true] at h ⊢
        exact ⟨h.1, ih cs h.2⟩

/-- Mapping `[:.] → -` preserves strict lexicographic order between two
character lists of the ISO-timestamp shape: at fixed positions the two
lists hold the same character, and at digit positions `tsMap` is the
identity. -/
theorem lt_map_tsMap {l1 l2 : List Char} (hlt : List.lt l1 l2) :
    ∀ (sh : List (Option Char)),
    matchesShape sh l1 = true → matchesShape sh l2 = true →
    l1.length = sh.length → l2.length = sh.length →
    List.lt (l1.map tsMap) (l2.map tsMap) := by
  induction hlt with
  | nil b bs =>
    intro sh _ h2 hl1 hl2
    cases sh with
    | nil => simp at hl2
    | cons o os => simp at hl1
  | head as bs hab =>
    rename_i a b
    intro sh h1 h2 hl1 hl2
    cases sh with
    | nil => simp at hl1
    | cons o os =>
      cases o with
      | some d =>
        simp only [matchesShape, Bool.and_eq_true, beq_iff_eq] at h1 h2
        rw [h1.1, h2.1] at hab
        exact absurd hab (lt_irrefl d)
      | none =>
        simp only [matchesShape, Bool.and_eq_true] at h1 h2
        simp only [List.map_cons]
        rw [tsMap_digit h1.1, tsMap_digit h2.1]
        exact List.lt.head _ _ hab
  | tail hab hba hlt ih =>
    rename_i a as b bs
    intro sh h1 h2 hl1 hl2
    cases sh with
    | nil => simp at hl1
    | cons o os =>
      have heq : a = b := le_antisymm (not_lt.mp hba) (not_lt.mp hab)
      subst heq
      have h1t : matchesShape os as = true := by
        cases o <;> · simp only [matchesShape, Bool.and_eq_true] at h1; exact h1.2
      have h2t : matchesShape os bs = true := by
        cases o <;> · simp only [matchesShape, Bool.and_eq_true] at h2; exact h2.2
      simp only [List.map_cons]
      exact List.lt.tail (lt_irrefl _) (lt_irrefl _)
        (ih os h1t h2t (by simpa using hl1) (by simpa using hl2))

/-- Appending suffixes to two equal-length lists in strict lexicographic
order preserves the order: the first difference lies within the common
length. -/
theorem lt_append_of_lt {a1 a2 : List Char} (h : List.lt a1 a2) :
    ∀ (b1 b2 : List Char), a1.length = a2.length →
    List.lt (a1 ++ b1) (a2 ++ b2) := by
  induction h with
  | nil b bs => intro b1 b2 hlen; simp at hlen
  | head as bs hab =>
    intro b1 b2 _
    rw [List.cons_append, List.cons_append]
    exact List.lt.head _ _ hab
  | tail hab hba hlt ih =>
    intro b1 b2 hlen
    rw [List.cons_append, List.cons_append]
    exact List.lt.tail hab hba (ih b1 b2 (by simpa using hlen))

/-- C8, amended: run-folder names are strictly ordered (hence distinct)
whenever the two runs' ISO timestamps differ within their first 19
characters, i.e. the runs start in different seconds: the earlier run
gets the lexicographically smaller folder name, whatever the two query
slugs are.  (Two runs within the same second produce colliding timestamp
components; see the counterexample.) -/
theorem claim8_folder_order (iso1 iso2 q1 q2 : String)
    (h1 : matchesShape isoShape iso1.data = true)
    (h2 : matchesShape isoShape iso2.data = true)
    (hlt : List.lt (iso1.data.take 19) (iso2.data.take 19)) :
    folderName iso1 q1 < folderName iso2 q2 ∧
    folderName iso1 q1 ≠ folderName iso2 q2 := by
  have hshape : isoShape.length = 19 := rfl
  have hlen1 : (iso1.data.take 19).length = 19 := by
    rw [List.length_take]
    have := matchesShape_length_le isoShape iso1.data h1
    rw [hshape] at this
    omega
  have hlen2 : (iso2.data.take 19).length = 19 := by
    rw [List.length_take]
    have := matchesShape_length_le isoShape iso2.data h2
    rw [hshape] at this
    omega
  have ht1 : matchesShape isoShape (iso1.data.take 19) = true := by
    have := matchesShape_take isoShape iso1.data h1
    rwa [hshape] at this
  have ht2 : matchesShape isoShape (iso2.data.take 19) = true := by
    have := matchesShape_take isoShape iso2.data h2
    rwa [hshape] at this
  have hmlt : List.lt ((iso1.data.take 19).map tsMap)
      ((iso2.data.take 19).map tsMap) :=
    lt_map_tsMap hlt isoShape ht1 ht2 (by rw [hlen1, hshape]) (by rw [hlen2, hshape])
  have hmlen : ((iso1.data.take 19).map tsMap).length
      = ((iso2.data.take 19).map tsMap).length := by
    rw [List.length_map, List.length_map, hlen1, hlen2]
  have hfull : List.lt (folderName iso1 q1).data (folderName iso2 q2).data := by
    show List.lt ((tsSlice iso1 ++ "_" ++ slugify q1).data)
      ((tsSlice iso2 ++ "_" ++ slugify q2).data)
    rw [String.data_append, String.data_append, String.data_append,
      String.data_append, List.append_assoc, List.append_assoc]
    show List.lt ((iso1.data.map tsMap).take 19 ++ _)
      ((iso2.data.map tsMap).take 19 ++ _)
    rw [← List.map_take, ← List.map_take]
    exact lt_append_of_lt hmlt _ _ hmlen
  have hlex : List.Lex (fun a b => a < b)
      (folderName iso1 q1).data (folderName iso2 q2).data :=
    (List.lt_iff_lex_lt _ _).mp hfull
  have hstr : folderName iso1 q1 < folderName iso2 q2 :=
    String.lt_iff_toList_lt.mpr hlex
  exact ⟨hstr, ne_of_lt hstr⟩

/-- C8, witness: two runs one second apart get distinct, chronologically
ordered folder names. -/
theorem claim8_folder_order_witness :
    folderName "2026-01-02T03:04:05.123Z" "alpha"
      < folderName "2026-01-02T03:04:06.000Z" "beta" ∧
    folderName "2026-01-02T03:04:05.123Z" "alpha"
      ≠ folderName "2026-01-02T03:04:06.000Z" "beta" :=
  claim8_folder_order "2026-01-02T03:04:05.123Z" "2026-01-02T03:04:06.000Z"
    "alpha" "beta" (by decide) (by decide)
    ((List.lt_iff_lex_lt _ _).mpr (by decide))

/-- C8, counterexample to the original claim: two distinct runs (their
ISO start timestamps differ in the milliseconds) with the same query get
the **same** `folderId` — the 19-character slice cuts the timestamp at
second granularity, so `folderId` is not unique per run. -/
theorem claim8_counterexample :
    folderName "2026-01-02T03:04:05.100Z" "capital of france"
      = folderName "2026-01-02T03:04:05.900Z" "capital of france" ∧
    ("2026-01-02T03:04:05.100Z" : String) ≠ "2026-01-02T03:04:05.900Z" := by
  constructor
  · decide
  · decide

/-! ### Lemmas about the collection pipeline -/

theorem length_filterMap_cons {α β : Type} (g : α → Option β) (a : α) (l : List α) :
    (List.filterMap g (a :: l)).length
      = (if (g a).isSome then 1 else 0) + (List.filterMap g l).length := by
  rw [List.filterMap_cons]
  cases g a <;> simp [Nat.add_comm]

theorem countOk_cons (r : EngResponse) (rs : List EngResponse) :
    countOk (r :: rs) = (if r.status == "ok" then 1 else 0) + countOk rs := by
  simp only [countOk, List.filter_cons]
  split <;> simp [Nat.add_comm]

/-- An engine contributes to `responseFiles` exactly when its `responses`
entry has status `"ok"` — both happen in the same `if (text)` branch. -/
theorem engineStep_ok_iff (e : Engine) (run : Option ExtractEnv) :
    ((engineStep e run).2.1).isSome = ((engineStep e run).1.status == "ok") := by
  cases run with
  | none => rfl
  | some ex =>
    simp only [engineStep]
    split
    · simp
    · simp

theorem engineStep_files_none (e : Engine) : (engineStep e none).2.2 = [] := rfl

/-- A matched engine writes exactly its `<slug>.md` file, whether the
extraction succeeded or not. -/
theorem engineStep_files_some (e : Engine) (ex : ExtractEnv) :
    (engineStep e (some ex)).2.2 = [e.slug ++ ".md"] := by
  simp only [engineStep]
  split
  · rfl
  · rfl

theorem responseFiles_length_eq_countOk (runs : List (Engine × Option ExtractEnv)) :
    (List.filterMap (fun s => s.2.1) (runs.map (fun er => engineStep er.1 er.2))).length
      = countOk (List.map (fun s => s.1) (runs.map (fun er => engineStep er.1 er.2))) := by
  induction runs with
  | nil => rfl
  | cons er rest ih =>
    rw [List.map_cons, length_filterMap_cons, List.map_cons, countOk_cons, ih,
      engineStep_ok_iff]

/-- C2: in a `collectAll` run with synthesis enabled, the synthesis step
is attempted iff at least 2 engines report status `"ok"`; with fewer the
run still completes, producing a result entry for every configured
engine. -/
theorem claim2_synthesis_gate (runs : List (Engine × Option ExtractEnv))
    (sOk : Bool) :
    ((collectAll ⟨true, runs, sOk⟩).synthAttempted = true ↔
      2 ≤ countOk (collectAll ⟨true, runs, sOk⟩).responses) ∧
    (collectAll ⟨true, runs, sOk⟩).responses.length = runs.length := by
  have hcount := responseFiles_length_eq_countOk runs
  constructor
  · simp only [collectAll, Bool.true_and, decide_eq_true_eq]
    rw [hcount]
  · simp [collectAll]

/-- C7, counterexample to the original claim: an engine with no matching
tab gets **no** file — the loop `continue`s before any write — so a run
whose single engine has no tab writes only the query file. -/
theorem claim7_counterexample :
    (collectAll ⟨true, [(⟨"Claude", "claude"⟩, none)], true⟩).files
      = ["prompt.md"] ∧
    "claude.md" ∉ (collectAll ⟨true, [(⟨"Claude", "claude"⟩, none)], true⟩).files := by
  constructor
  · decide
  · decide

/-- C7, amended: every `collectAll` run writes the query file, then one
file per engine **with a matching tab** — engines whose extraction
failed included (their file is the annotated "no response collected"
placeholder) — and a synthesis file iff synthesis was attempted and the
external process succeeded.  Engines with no matching tab contribute no
file. -/
theorem claim7_files_written (env : CollectEnv) :
    (collectAll env).files =
      "prompt.md" ::
        ((env.engineRuns.filter (fun er => er.2.isSome)).map
            (fun er => er.1.slug ++ ".md")
          ++ (if (collectAll env).synthAttempted && env.synthesisSucceeds
              then ["synthesis.md"] else [])) := by
  have hflat : ∀ (runs : List (Engine × Option ExtractEnv)),
      (List.map (fun s => s.2.2) (runs.map (fun er => engineStep er.1 er.2))).flatten
        = (runs.filter (fun er => er.2.isSome)).map (fun er => er.1.slug ++ ".md") := by
    intro runs
    induction runs with
    | nil => rfl
    | cons er rest ih =>
      rcases er with ⟨e, run⟩
      rw [List.map_cons, List.map_cons, List.flatten_cons, ih, List.filter_cons]
      cases run with
      | none =>
        rw [engineStep_files_none]
        simp
      | some ex =>
        rw [engineStep_files_some]
        simp
  simp only [collectAll]
  rw [hflat]
  rfl

/-- A successful (truthy) extraction yields the `"ok"` response entry of
the `if (text)` branch. -/
theorem engineStep_ok_of_truthy (e : Engine) (ex : ExtractEnv)
    (h : jsTruthy (extractValue ex) = true) :
    (engineStep e (some ex)).1
      = ⟨e.name, e.slug, "ok", some (((extractValue ex).getD "").length),
         some (e.slug ++ ".md")⟩ := by
  simp only [engineStep]
  rw [if_pos h]

/-- C10: every per-engine entry of the structured `collectAll` output has
status `"ok"`, `"no_tab"` or `"failed"`; and an engine whose polling
timed out with a partial answer is reported as `"ok"`, its `chars` field
counting the annotated text (partial text plus timeout marker) — no
distinct timeout status reaches the public interface. -/
theorem claim10_status_space :
    (∀ (env : CollectEnv) (r : EngResponse), r ∈ (collectAll env).responses →
      r.status = "ok" ∨ r.status = "no_tab" ∨ r.status = "failed") ∧
    (∀ (e : Engine) (ex : ExtractEnv) (t : String), ex.connOk = true →
      extractLoop ex.polls = ExtractOutcome.timedOut t →
      (engineStep e (some ex)).1.status = "ok" ∧
      (engineStep e (some ex)).1.chars = some ((t ++ timeoutMarker).length)) := by
  constructor
  · intro env r hr
    simp only [collectAll, List.map_map, List.mem_map] at hr
    rcases hr with ⟨er, _, rfl⟩
    rcases er with ⟨e, run⟩
    cases run with
    | none => right; left; rfl
    | some ex =>
      by_cases ht : jsTruthy (extractValue ex) = true
      · left
        simp [engineStep, ht]
      · right; right
        have ht' : jsTruthy (extractValue ex) = false := by simpa using ht
        simp [engineStep, ht']
  · intro e ex t hconn hloop
    have hval : extractValue ex = some (t ++ timeoutMarker) := by
      simp [extractValue, extractFromTabRun, hconn, hloop]
    have hpos : 0 < (t ++ timeoutMarker).length := by
      rw [String.length_append]
      have hm : 0 < timeoutMarker.length := by decide
      omega
    have htruthy : jsTruthy (extractValue ex) = true := by
      rw [hval]
      simp only [jsTruthy, decide_eq_true_eq]
      exact hpos
    constructor
    · rw [engineStep_ok_of_truthy e ex htruthy]
    · rw [engineStep_ok_of_truthy e ex htruthy, hval]
      rfl

/-- C10, witness: a no-tab entry's status is in the allowed set, and a
run that times out with partial text `"a"` is reported `"ok"` with the
annotated character count. -/
theorem claim10_status_space_witness :
    ((⟨"Claude", "claude", "no_tab", none, none⟩ : EngResponse).status = "ok" ∨
      (⟨"Claude", "claude", "no_tab", none, none⟩ : EngResponse).status = "no_tab" ∨
      (⟨"Claude", "claude", "no_tab", none, none⟩ : EngResponse).status = "failed") ∧
    ((engineStep ⟨"Claude", "claude"⟩ (some ⟨true, [Poll.text "a"]⟩)).1.status = "ok" ∧
      (engineStep ⟨"Claude", "claude"⟩ (some ⟨true, [Poll.text "a"]⟩)).1.chars
        = some (("a" ++ timeoutMarker).length)) :=
  ⟨claim10_status_space.1 ⟨true, [(⟨"Claude", "claude"⟩, none)], true⟩
      ⟨"Claude", "claude", "no_tab", none, none⟩ (by decide),
   claim10_status_space.2 ⟨"Claude", "claude"⟩ ⟨true, [Poll.text "a"]⟩ "a"
      (by decide) (by decide)⟩

/-! ### Concrete evaluations of the embedded definitions -/

/-- Sanity check: `slugify` on a mixed-case punctuated query. -/
theorem slugify_sample : slugify "Hello, World!" = "hello-world" := by decide

/-- Sanity check: leading/trailing separators are stripped and inner runs
collapse. -/
theorem slugify_sample_runs : slugify "  --a--b--  " = "a-b" := by decide

/-- Sanity check: an interleaved eval error does not reset the stability
counter — the loop stabilizes on the third matching poll after capture. -/
theorem extractLoop_sample_err_transparent :
    extractLoop [Poll.text "a", Poll.err, Poll.text "a", Poll.text "a", Poll.text "a"]
      = ExtractOutcome.stable "a" := by decide

/-- Sanity check: the returned value of a timed-out partial run carries
the annotation suffix. -/
theorem extractValue_sample_timeout :
    extractValue ⟨true, [Poll.text "a", Poll.text "b"]⟩
      = some ("b" ++ timeoutMarker) := by decide

end ClipboardSearch
